import Mathlib

/-!
Verification of the schedule-extraction core of `parse_sputnik.py`.

The program's pure core turns the cell texts of HTML table rows into a
deduplicated, ordered list of `Train` records (time, route, days).  HTML
markup parsing (BeautifulSoup) is an external collaborator: a table is
modelled as a list of rows, each row a list of raw cell texts.

Strings are modelled as `List Char` (`Str`).  Python's `\s` is modelled by
the ASCII whitespace characters, `\d` and `\w` by ASCII digits and
ASCII/Cyrillic alphanumerics plus underscore, and `str.lower` by an
ASCII+Cyrillic lowering — exactly the character classes exercised by this
program's fixed Russian label sets.
-/

/-- Strings are lists of characters. -/
abbrev Str := List Char

/-- Convert a Lean string literal into the `Str` model. -/
def str (s : String) : Str := s.data

/-- Python `\s` (ASCII range): space, tab, newline, carriage return,
vertical tab, form feed. -/
def pySpace (c : Char) : Bool :=
  c == ' ' || c == '\t' || c == '\n' || c == '\r' || c == '\x0b' || c == '\x0c'

/-- Drop characters satisfying `p` from both ends of a string
(Python `str.strip` / `str.strip(chars)` with `p` the character set). -/
def stripEnds (p : Char → Bool) (s : Str) : Str :=
  ((s.dropWhile p).reverse.dropWhile p).reverse

/-- Python `str.strip()`: strip whitespace from both ends. -/
def pyStrip (s : Str) : Str := stripEnds pySpace s

/-- Python `str.lstrip()`: strip leading whitespace. -/
def pyLstrip (s : Str) : Str := s.dropWhile pySpace

/-- Replace every maximal run of whitespace by a single space character
(the effect of `re.sub(r"\s+", " ", text)`). -/
def collapseSpaces : Str → Str
  | [] => []
  | [c] => if pySpace c then [' '] else [c]
  | c :: d :: rest =>
    if pySpace c && pySpace d then collapseSpaces (d :: rest)
    else (if pySpace c then ' ' else c) :: collapseSpaces (d :: rest)

/-- `normalize_spaces(text)`: `re.sub(r"\s+", " ", text).strip()`. -/
def normalize_spaces (s : Str) : Str := pyStrip (collapseSpaces s)

/-- Lower-case ASCII `A..Z` and Cyrillic `А..Я`, `Ё` (the characters this
program's case-insensitive label matching can meet). -/
def toLowerRu (c : Char) : Char :=
  if 'A' ≤ c ∧ c ≤ 'Z' then Char.ofNat (c.toNat + 32)
  else if 'А' ≤ c ∧ c ≤ 'Я' then Char.ofNat (c.toNat + 32)
  else if c = 'Ё' then 'ё' else c

/-- Python `pat in s` (substring containment). -/
def containsSub (pat : Str) : Str → Bool
  | [] => pat.isEmpty
  | c :: cs => pat.isPrefixOf (c :: cs) || containsSub pat cs

/-- The lower-cased pattern `pat` matches case-insensitively at the front
of `s`. -/
def matchesCI (pat s : Str) : Bool := pat.isPrefixOf (s.map toLowerRu)

/-- Scanner for `re.sub(pat, "", s, flags=IGNORECASE)` with a literal,
lower-case, non-empty `pat`: removes non-overlapping occurrences left to
right.  `skip > 0` means we are inside a matched region still to be
consumed. -/
def removeCIAux (pat : Str) : Nat → Str → Str
  | _, [] => []
  | Nat.succ k, _ :: cs => removeCIAux pat k cs
  | 0, c :: cs =>
    if !pat.isEmpty && matchesCI pat (c :: cs) then removeCIAux pat (pat.length - 1) cs
    else c :: removeCIAux pat 0 cs

/-- Remove every (left-to-right, non-overlapping) case-insensitive
occurrence of `pat` from `s`. -/
def removeAllCI (pat s : Str) : Str := removeCIAux pat 0 s

/-- `DAY_LABELS = ("ежедневно", "будни", "выходные")`. -/
def DAY_LABELS : List Str := [str "ежедневно", str "будни", str "выходные"]

/-- `TRAIN_KINDS = ("Электричка", "Спутник", "Иволга", "Ласточка")`. -/
def TRAIN_KINDS : List Str := [str "Электричка", str "Спутник", str "Иволга", str "Ласточка"]

/-- `remove_train_kind(text)`: drop the first matching train-kind label
from the front of the string and left-strip; labels are tried in tuple
order and only the first hit is removed. -/
def remove_train_kind (text : Str) : Str :=
  match TRAIN_KINDS.find? (fun kind => kind.isPrefixOf text) with
  | some kind => pyLstrip (text.drop kind.length)
  | none => text

/-- `remove_day_labels(text)`: for each label in `DAY_LABELS` in order,
remove all its case-insensitive occurrences. -/
def remove_day_labels (text : Str) : Str :=
  DAY_LABELS.foldl (fun result label => removeAllCI label result) text

/-- ASCII digit test (Python `\d` for this program's inputs). -/
def isDigitC (c : Char) : Bool := c.isDigit

/-- The effect of `re.sub(r"\d+\s*$", "", route)`: if the string ends in
optional whitespace preceded by at least one digit, remove that final
digit run and the trailing whitespace; otherwise leave it unchanged. -/
def stripTrailingNumber (s : Str) : Str :=
  match (s.reverse.dropWhile pySpace) with
  | [] => s
  | c :: cs =>
    if isDigitC c then ((c :: cs).dropWhile isDigitC).reverse else s

/-- `simplify_route_text(raw)`: truncate at the first `(`, strip, remove
the train kind, remove day labels, drop a trailing train number, collapse
whitespace, and strip edge spaces and commas. -/
def simplify_route_text (raw : Str) : Str :=
  let route := raw.takeWhile (fun c => c ≠ '(')
  let route := pyStrip route
  let route := remove_train_kind route
  let route := remove_day_labels route
  let route := stripTrailingNumber route
  let route := normalize_spaces route
  stripEnds (fun c => c == ' ' || c == ',') route

/-- Python `\w` for this program: ASCII alphanumerics, underscore, and
Cyrillic letters. -/
def isWordChar (c : Char) : Bool :=
  c.isAlphanum || c == '_' || ('А' ≤ c && c ≤ 'я') || c == 'Ё' || c == 'ё'

/-- A match of `\b\d{2}:\d{2}\b` starts at the head of `l`, with `prev`
the character immediately before `l` (`none` at string start). -/
def timeAt (prev : Option Char) (l : Str) : Bool :=
  match l with
  | d1 :: d2 :: c :: d3 :: d4 :: rest =>
    isDigitC d1 && isDigitC d2 && c == ':' && isDigitC d3 && isDigitC d4 &&
    (match prev with | none => true | some p => !isWordChar p) &&
    (match rest with | [] => true | r :: _ => !isWordChar r)
  | _ => false

/-- Leftmost search for `\b\d{2}:\d{2}\b` in a single string
(`re.search`), carrying the previous character for the word boundary. -/
def findTimeIn (prev : Option Char) : Str → Option Str
  | [] => none
  | c :: cs =>
    if timeAt prev (c :: cs) then some ((c :: cs).take 5)
    else findTimeIn (some c) cs

/-- `find_departure_time(chunks)`: return the first `HH:MM`-shaped match
found in any chunk, in chunk order. -/
def find_departure_time (chunks : List Str) : Option Str :=
  chunks.findSome? (findTimeIn none)

/-- `find_days_label(chunks)`: for each chunk in order, lower-case it and
return the first `DAY_LABELS` entry (in tuple order) contained in it;
empty string if none. -/
def find_days_label : List Str → Str
  | [] => []
  | part :: rest =>
    match DAY_LABELS.find? (fun label => containsSub label (part.map toLowerRu)) with
    | some label => label
    | none => find_days_label rest

/-- A chunk contains one of the dash characters `—`, `–`, `-`. -/
def hasDash (part : Str) : Bool :=
  part.contains '—' || part.contains '–' || part.contains '-'

/-- The loop body of `find_route_string`: a dash-containing chunk yields
its simplification when that is non-empty, otherwise nothing. -/
def routeOfChunk (part : Str) : Option Str :=
  if hasDash part then
    let route := simplify_route_text part
    if route.isEmpty then none else some route
  else none

/-- `find_route_string(chunks)`: simplify the first dash-containing chunk
whose simplification is non-empty; `none` if there is no such chunk. -/
def find_route_string (chunks : List Str) : Option Str :=
  chunks.findSome? routeOfChunk

/-- The `Train` dataclass: one departure record. -/
structure Train where
  time : Str
  route : Str
  days : Str
deriving DecidableEq, Repr

/-- The dedup key `(time, route, days)`. -/
def trainKey (t : Train) : Str × Str × Str := (t.time, t.route, t.days)

/-- The row texts of one table row: keep cells whose stripped text is
non-empty, and normalize each kept cell's text (the list comprehension in
`parse_schedule`; extracting a cell's text from markup is the external
HTML collaborator). -/
def rowTexts (cells : List Str) : List Str :=
  (cells.filter (fun cell => !(pyStrip cell).isEmpty)).map normalize_spaces

/-- Python truthiness of the skip guard
`day_filter and days != day_filter`: `None` and the empty string are
falsy. -/
def dayFilterSkip (day_filter : Option Str) (days : Str) : Bool :=
  match day_filter with
  | none => false
  | some f => !f.isEmpty && days != f

/-- The per-row body of `parse_schedule`'s loop, up to deduplication:
`none` when the row is skipped (no texts, no time, filtered out, or no
route), `some` record otherwise. -/
def rowTrain (day_filter : Option Str) (cells : List Str) : Option Train :=
  let texts := rowTexts cells
  if texts.isEmpty then none
  else
    match find_departure_time texts with
    | none => none
    | some time =>
      let days := find_days_label texts
      if dayFilterSkip day_filter days then none
      else
        match find_route_string texts with
        | none => none
        | some route => some ⟨time, route, days⟩

/-- The row loop of `parse_schedule`: `seen` is the dedup set (modelled
as a list of keys), rows are processed in order. -/
def parseAux (day_filter : Option Str) (seen : List (Str × Str × Str)) :
    List (List Str) → List Train
  | [] => []
  | row :: rest =>
    let texts := rowTexts row
    if texts.isEmpty then parseAux day_filter seen rest
    else
      match find_departure_time texts with
      | none => parseAux day_filter seen rest
      | some time =>
        let days := find_days_label texts
        if dayFilterSkip day_filter days then parseAux day_filter seen rest
        else
          match find_route_string texts with
          | none => parseAux day_filter seen rest
          | some route =>
            let key := (time, route, days)
            if key ∈ seen then parseAux day_filter seen rest
            else ⟨time, route, days⟩ :: parseAux day_filter (key :: seen) rest

/-- `parse_schedule(html, day_filter)`: rows are the `<tr>` elements of
the HTML (supplied by the external markup collaborator as lists of raw
cell texts), `seen` starts empty on every call. -/
def parse_schedule (rows : List (List Str)) (day_filter : Option Str := none) :
    List Train :=
  parseAux day_filter [] rows

/-- Two invocations of `parse_schedule` on the same arguments, one after
the other (each call constructs its own fresh `seen` set). -/
def parseTwice (rows : List (List Str)) (day_filter : Option Str) :
    List Train × List Train :=
  (parse_schedule rows day_filter, parse_schedule rows day_filter)

/-- Canonical first-occurrence deduplication by key: a record is kept iff
its key has not been seen before; later duplicates are dropped. -/
def dedupKeysAux (seen : List (Str × Str × Str)) : List Train → List Train
  | [] => []
  | t :: ts =>
    if trainKey t ∈ seen then dedupKeysAux seen ts
    else t :: dedupKeysAux (trainKey t :: seen) ts

/-- The claim's well-formed time: `HH:MM` shape with hour `00`–`23` and
minute `00`–`59` (digit values read from the characters). -/
def isValidHHMM : Str → Bool
  | [a, b, c, d, e] =>
    isDigitC a && isDigitC b && c == ':' && isDigitC d && isDigitC e &&
    decide ((a.toNat - '0'.toNat) * 10 + (b.toNat - '0'.toNat) ≤ 23) &&
    decide ((d.toNat - '0'.toNat) * 10 + (e.toNat - '0'.toNat) ≤ 59)
  | _ => false

/-- The shape `\d{2}:\d{2}`: exactly five characters, digit digit colon
digit digit (no range constraint on the values). -/
def isHHMMShape : Str → Bool
  | [a, b, c, d, e] =>
    isDigitC a && isDigitC b && c == ':' && isDigitC d && isDigitC e
  | _ => false

/-- The claim's canonical route form: no `(`, no train-kind label at the
front, no day-pattern word anywhere (case-insensitively), and no digit at
the end. -/
def isCanonicalRoute (r : Str) : Bool :=
  !r.contains '(' &&
  !TRAIN_KINDS.any (fun kind => kind.isPrefixOf r) &&
  !DAY_LABELS.any (fun label => containsSub label (r.map toLowerRu)) &&
  (match r.reverse with | [] => true | c :: _ => !isDigitC c)

/-- Modelled from the spec: `findDaysLabel` returns the first day-pattern
label found across the nested iteration — fragments in row order, labels
in the fixed order within each lower-cased fragment — and the empty
string when no fragment contains any label. -/
def findDaysLabelSpec (chunks : List Str) : Str :=
  (chunks.filterMap
    (fun part => DAY_LABELS.find? (fun label => containsSub label (part.map toLowerRu)))).headD []

/-! ### Character-membership lemmas: each cleanup step only keeps
characters of its input (possibly introducing spaces). -/

theorem mem_stripEnds {c : Char} {p : Char → Bool} {s : Str}
    (h : c ∈ stripEnds p s) : c ∈ s := by
  unfold stripEnds at h
  rw [List.mem_reverse] at h
  have h1 := (List.dropWhile_sublist p).subset h
  rw [List.mem_reverse] at h1
  exact (List.dropWhile_sublist p).subset h1

theorem mem_collapseSpaces {c : Char} :
    ∀ s : Str, c ∈ collapseSpaces s → c ∈ s ∨ c = ' '
  | [] => by simp [collapseSpaces]
  | [x] => by
    simp only [collapseSpaces]
    split
    · intro h; right; simpa using h
    · intro h; left; simpa using h
  | x :: y :: rest => by
    intro h
    simp only [collapseSpaces] at h
    split at h
    · rcases mem_collapseSpaces (y :: rest) h with h' | h'
      · exact Or.inl (List.mem_cons_of_mem x h')
      · exact Or.inr h'
    · rcases List.mem_cons.mp h with h' | h'
      · subst h'
        split
        · exact Or.inr rfl
        · exact Or.inl (List.mem_cons_self _ _)
      · rcases mem_collapseSpaces (y :: rest) h' with h'' | h''
        · exact Or.inl (List.mem_cons_of_mem x h'')
        · exact Or.inr h''

theorem mem_normalize_spaces {c : Char} {s : Str}
    (h : c ∈ normalize_spaces s) : c ∈ s ∨ c = ' ' :=
  mem_collapseSpaces s (mem_stripEnds h)

theorem mem_removeCIAux {c : Char} {pat : Str} :
    ∀ (k : Nat) (s : Str), c ∈ removeCIAux pat k s → c ∈ s
  | _, [], h => by simp [removeCIAux] at h
  | Nat.succ k, x :: cs, h => by
    simp only [removeCIAux] at h
    exact List.mem_cons_of_mem x (mem_removeCIAux k cs h)
  | 0, x :: cs, h => by
    simp only [removeCIAux] at h
    split at h
    · exact List.mem_cons_of_mem x (mem_removeCIAux _ cs h)
    · rcases List.mem_cons.mp h with h' | h'
      · exact h' ▸ List.mem_cons_self _ _
      · exact List.mem_cons_of_mem x (mem_removeCIAux 0 cs h')

theorem mem_remove_day_labels {c : Char} {s : Str}
    (h : c ∈ remove_day_labels s) : c ∈ s := by
  unfold remove_day_labels DAY_LABELS at h
  simp only [List.foldl] at h
  exact mem_removeCIAux _ _ (mem_removeCIAux _ _ (mem_removeCIAux _ _ h))

theorem mem_remove_train_kind {c : Char} {s : Str}
    (h : c ∈ remove_train_kind s) : c ∈ s := by
  unfold remove_train_kind at h
  split at h
  · exact (List.drop_subset _ _) ((List.dropWhile_sublist pySpace).subset h)
  · exact h

theorem mem_stripTrailingNumber {c : Char} {s : Str}
    (h : c ∈ stripTrailingNumber s) : c ∈ s := by
  unfold stripTrailingNumber at h
  split at h
  · exact h
  next x cs heq =>
    split at h
    · rw [List.mem_reverse] at h
      have h1 := (List.dropWhile_sublist isDigitC).subset h
      rw [← heq] at h1
      have h2 := (List.dropWhile_sublist pySpace).subset h1
      exact List.mem_reverse.mp h2
    · exact h

theorem mem_pyStrip {c : Char} {s : Str} (h : c ∈ pyStrip s) : c ∈ s :=
  mem_stripEnds h

theorem paren_not_mem_simplify (raw : Str) : '(' ∉ simplify_route_text raw := by
  intro h
  simp only [simplify_route_text] at h
  have h1 := mem_stripEnds h
  rcases mem_normalize_spaces h1 with h2 | h2
  · have h3 := mem_stripTrailingNumber h2
    have h4 := mem_remove_day_labels h3
    have h5 := mem_remove_train_kind h4
    have h6 := mem_pyStrip h5
    have h7 := List.mem_takeWhile_imp h6
    simp at h7
  · simp at h2

/-! ### Structure of the row loop: one-step characterization and the
bridge to canonical first-occurrence deduplication. -/

theorem parseAux_cons (d : Option Str) (seen : List (Str × Str × Str))
    (row : List Str) (rest : List (List Str)) :
    parseAux d seen (row :: rest) =
      match rowTrain d row with
      | none => parseAux d seen rest
      | some t =>
        if trainKey t ∈ seen then parseAux d seen rest
        else t :: parseAux d (trainKey t :: seen) rest := by
  cases hE : (rowTexts row).isEmpty with
  | true => simp [parseAux, rowTrain, hE]
  | false =>
    cases hT : find_departure_time (rowTexts row) with
    | none => simp [parseAux, rowTrain, hE, hT]
    | some time =>
      cases hS : dayFilterSkip d (find_days_label (rowTexts row)) with
      | true => simp [parseAux, rowTrain, hE, hT, hS]
      | false =>
        cases hR : find_route_string (rowTexts row) with
        | none => simp [parseAux, rowTrain, hE, hT, hS, hR]
        | some route => simp [parseAux, rowTrain, hE, hT, hS, hR, trainKey]

theorem parseAux_eq_dedup (d : Option Str) (seen : List (Str × Str × Str)) :
    ∀ rows : List (List Str),
      parseAux d seen rows = dedupKeysAux seen (rows.filterMap (rowTrain d)) := by
  intro rows
  induction rows generalizing seen with
  | nil => simp [parseAux, dedupKeysAux]
  | cons row rest ih =>
    rw [parseAux_cons, List.filterMap_cons]
    cases h : rowTrain d row with
    | none => exact ih seen
    | some t =>
      simp only [dedupKeysAux]
      by_cases hk : trainKey t ∈ seen <;> simp [hk, ih]

theorem mem_dedupKeysAux {t : Train} :
    ∀ (seen : List (Str × Str × Str)) (l : List Train),
      t ∈ dedupKeysAux seen l → t ∈ l
  | _, [], h => by simp [dedupKeysAux] at h
  | seen, u :: us, h => by
    simp only [dedupKeysAux] at h
    split at h
    · exact List.mem_cons_of_mem u (mem_dedupKeysAux seen us h)
    · rcases List.mem_cons.mp h with h' | h'
      · exact h' ▸ List.mem_cons_self _ _
      · exact List.mem_cons_of_mem u (mem_dedupKeysAux _ us h')

theorem dedupKeysAux_sublist :
    ∀ (seen : List (Str × Str × Str)) (l : List Train),
      List.Sublist (dedupKeysAux seen l) l
  | _, [] => by simp [dedupKeysAux]
  | seen, u :: us => by
    simp only [dedupKeysAux]
    split
    · exact (dedupKeysAux_sublist seen us).cons u
    · exact (dedupKeysAux_sublist _ us).cons₂ u

theorem dedupKeysAux_key_not_mem {k : Str × Str × Str} :
    ∀ (seen : List (Str × Str × Str)) (l : List Train), k ∈ seen →
      k ∉ (dedupKeysAux seen l).map trainKey
  | _, [], _ => by simp [dedupKeysAux]
  | seen, u :: us, hk => by
    simp only [dedupKeysAux]
    split
    · exact dedupKeysAux_key_not_mem seen us hk
    next hu =>
      simp only [List.map_cons, List.mem_cons]
      rintro (h | h)
      · exact hu (h ▸ hk)
      · exact dedupKeysAux_key_not_mem (trainKey u :: seen) us
          (List.mem_cons_of_mem _ hk) h

theorem dedupKeysAux_keys_nodup :
    ∀ (seen : List (Str × Str × Str)) (l : List Train),
      ((dedupKeysAux seen l).map trainKey).Nodup
  | _, [] => by simp [dedupKeysAux]
  | seen, u :: us => by
    simp only [dedupKeysAux]
    split
    · exact dedupKeysAux_keys_nodup seen us
    · simp only [List.map_cons, List.nodup_cons]
      exact ⟨dedupKeysAux_key_not_mem _ us (List.mem_cons_self _ _),
        dedupKeysAux_keys_nodup _ us⟩

/-! ### Facts extracted from a successful `rowTrain`. -/

theorem rowTrain_eq_some {d : Option Str} {row : List Str} {t : Train}
    (h : rowTrain d row = some t) :
    find_departure_time (rowTexts row) = some t.time ∧
    t.days = find_days_label (rowTexts row) ∧
    dayFilterSkip d t.days = false ∧
    find_route_string (rowTexts row) = some t.route := by
  simp only [rowTrain] at h
  split at h
  · exact absurd h (by simp)
  · split at h
    · exact absurd h (by simp)
    next time hT =>
      split at h
      · exact absurd h (by simp)
      next hS =>
        split at h
        · exact absurd h (by simp)
        next route hR =>
          rw [Option.some_inj] at h
          subst h
          exact ⟨hT, rfl, by simpa using hS, hR⟩

theorem mem_parse_schedule {rows : List (List Str)} {d : Option Str} {t : Train}
    (h : t ∈ parse_schedule rows d) :
    ∃ row ∈ rows, rowTrain d row = some t := by
  unfold parse_schedule at h
  rw [parseAux_eq_dedup] at h
  have h1 := mem_dedupKeysAux _ _ h
  rcases List.mem_filterMap.mp h1 with ⟨row, hrow, hr⟩
  exact ⟨row, hrow, hr⟩

/-! ### Shape of an extracted departure time. -/

theorem timeAt_shape {prev : Option Char} {l : Str}
    (h : timeAt prev l = true) : isHHMMShape (l.take 5) = true := by
  match l with
  | [] => simp [timeAt] at h
  | [_] => simp [timeAt] at h
  | [_, _] => simp [timeAt] at h
  | [_, _, _] => simp [timeAt] at h
  | [_, _, _, _] => simp [timeAt] at h
  | d1 :: d2 :: c :: d3 :: d4 :: rest =>
    simp only [timeAt, Bool.and_eq_true] at h
    simp [List.take, isHHMMShape, h.1.1.1.1.1.1, h.1.1.1.1.1.2, h.1.1.1.1.2,
      h.1.1.1.2, h.1.1.2]

theorem findTimeIn_shape {t : Str} :
    ∀ (prev : Option Char) (s : Str), findTimeIn prev s = some t →
      isHHMMShape t = true
  | _, [], h => by simp [findTimeIn] at h
  | prev, c :: cs, h => by
    simp only [findTimeIn] at h
    split at h
    next hAt =>
      rw [Option.some_inj] at h
      exact h ▸ timeAt_shape hAt
    · exact findTimeIn_shape (some c) cs h

theorem find_departure_time_shape {t : Str} :
    ∀ chunks : List Str, find_departure_time chunks = some t →
      isHHMMShape t = true
  | [], h => by simp [find_departure_time] at h
  | part :: rest, h => by
    rw [find_departure_time, List.findSome?_cons] at h
    split at h
    next hf => exact findTimeIn_shape none part (hf.trans h)
    · exact find_departure_time_shape rest h

/-! ### Extraction facts about `find_route_string`. -/

theorem routeOfChunk_eq_some {part r : Str} (h : routeOfChunk part = some r) :
    hasDash part = true ∧ simplify_route_text part = r ∧ r ≠ [] := by
  simp only [routeOfChunk] at h
  split at h
  next hD =>
    split at h
    · exact absurd h (by simp)
    next hne =>
      rw [Option.some_inj] at h
      refine ⟨hD, h, ?_⟩
      rw [← h]
      simpa using hne
  · exact absurd h (by simp)

theorem find_route_string_eq_some {r : Str} :
    ∀ chunks : List Str, find_route_string chunks = some r →
      (∃ part ∈ chunks, hasDash part = true ∧ simplify_route_text part = r) ∧ r ≠ []
  | [], h => by simp [find_route_string] at h
  | part :: rest, h => by
    rw [find_route_string, List.findSome?_cons] at h
    split at h
    next b hf =>
      rw [Option.some_inj] at h
      subst h
      rcases routeOfChunk_eq_some hf with ⟨hD, hs, hr⟩
      exact ⟨⟨part, List.mem_cons_self _ _, hD, hs⟩, hr⟩
    · have := find_route_string_eq_some rest (by rw [find_route_string]; exact h)
      exact ⟨⟨this.1.choose, List.mem_cons_of_mem part this.1.choose_spec.1,
        this.1.choose_spec.2⟩, this.2⟩

theorem find_route_string_eq_none :
    ∀ chunks : List Str,
      (∀ c ∈ chunks, hasDash c = true → simplify_route_text c = []) →
      find_route_string chunks = none
  | [], _ => rfl
  | part :: rest, h => by
    rw [find_route_string, List.findSome?_cons]
    have hrest : find_route_string rest = none :=
      find_route_string_eq_none rest (fun c hc => h c (List.mem_cons_of_mem part hc))
    rw [find_route_string] at hrest
    cases hD : hasDash part with
    | false => simpa [routeOfChunk, hD] using hrest
    | true =>
      have hs := h part (List.mem_cons_self _ _) hD
      simpa [routeOfChunk, hD, hs] using hrest

/-! ### Claim theorems. -/

/-- C1 (amended): every record emitted by `parse_schedule` has a time of
shape `\d{2}:\d{2}` — two digits, a colon, two digits; the digit values
are not constrained to valid hours or minutes. -/
theorem C1_time_shape (rows : List (List Str)) (d : Option Str) (t : Train)
    (ht : t ∈ parse_schedule rows d) : isHHMMShape t.time = true := by
  rcases mem_parse_schedule ht with ⟨row, _, hr⟩
  exact find_departure_time_shape _ (rowTrain_eq_some hr).1

/-- C1 witness: the record extracted from the row `["08:45", "А — Б"]`
has a `\d{2}:\d{2}`-shaped time. -/
theorem C1_time_shape_witness :
    (⟨str "08:45", str "А — Б", []⟩ : Train) ∈
      parse_schedule [[str "08:45", str "А — Б"]] none ∧
    isHHMMShape (Train.time ⟨str "08:45", str "А — Б", []⟩) = true :=
  ⟨by decide, C1_time_shape [[str "08:45", str "А — Б"]] none _ (by decide)⟩

/-- C1 counterexample: the row `["99:99", "А — Б"]` yields a record whose
time `"99:99"` is not a valid `HH:MM` clock time (hour `99 > 23`), so the
claim that every emitted time has hour `00`–`23` and minute `00`–`59` is
false. -/
theorem C1_counterexample :
    ¬ (∀ t ∈ parse_schedule [[str "99:99", str "А — Б"]] none,
        isValidHHMM t.time = true) := by decide

/-- C2 (amended): every record emitted by `parse_schedule` has a route
containing no `(` character (the parenthetical tail is truncated away);
the remaining canonical-form properties do not hold in general. -/
theorem C2_route_no_paren (rows : List (List Str)) (d : Option Str) (t : Train)
    (ht : t ∈ parse_schedule rows d) : '(' ∉ t.route := by
  rcases mem_parse_schedule ht with ⟨row, _, hr⟩
  rcases find_route_string_eq_some _ (rowTrain_eq_some hr).2.2.2 with ⟨⟨part, _, _, hs⟩, _⟩
  rw [← hs]
  exact paren_not_mem_simplify part

/-- C2 witness: the record extracted from the row `["10:10", "М — Н"]`
has a route free of `(`. -/
theorem C2_route_no_paren_witness :
    (⟨str "10:10", str "М — Н", []⟩ : Train) ∈
      parse_schedule [[str "10:10", str "М — Н"]] none ∧
    '(' ∉ (Train.route ⟨str "10:10", str "М — Н", []⟩) :=
  ⟨by decide, C2_route_no_paren [[str "10:10", str "М — Н"]] none _ (by decide)⟩

/-- C2 counterexample: the row
`["08:45", "ЭлектричкаСпутник будвыходныени А — Б 1,"]` yields the route
`"Спутник будни А — Б 1"`, which starts with the train-kind label
`"Спутник"`, contains the day word `"будни"`, and ends in a digit — the
single-pass removals do not re-scan, so the claimed canonical form is
violated. -/
theorem C2_counterexample :
    ¬ (∀ t ∈ parse_schedule
          [[str "08:45", str "ЭлектричкаСпутник будвыходныени А — Б 1,"]] none,
        isCanonicalRoute t.route = true) := by decide

/-- C3: with a non-empty day filter, every emitted record's day label
string-equals the filter. -/
theorem C3_filter_correct (rows : List (List Str)) (f : Str) (t : Train)
    (hf : f ≠ []) (ht : t ∈ parse_schedule rows (some f)) : t.days = f := by
  rcases mem_parse_schedule ht with ⟨row, _, hr⟩
  have hS := (rowTrain_eq_some hr).2.2.1
  cases f with
  | nil => exact absurd rfl hf
  | cons a as =>
    simp only [dayFilterSkip, List.isEmpty_cons, Bool.not_false, Bool.true_and,
      bne_eq_false_iff_eq] at hS
    exact hS

/-- C3 witness: filtering for `"будни"` keeps the matching row and its
record carries `days = "будни"`. -/
theorem C3_filter_correct_witness :
    str "будни" ≠ [] ∧
    (⟨str "08:45", str "А — Б", str "будни"⟩ : Train) ∈
      parse_schedule [[str "08:45", str "А — Б", str "будни"]] (some (str "будни")) ∧
    (Train.days ⟨str "08:45", str "А — Б", str "будни"⟩) = str "будни" :=
  ⟨by decide, by decide,
    C3_filter_correct [[str "08:45", str "А — Б", str "будни"]] (str "будни") _
      (by decide) (by decide)⟩

/-- C4: within one parse result no two records share the `(time, route,
days)` key, and the result is exactly the first-occurrence deduplication
of the per-row records — a later duplicate is dropped, the first kept. -/
theorem C4_unique_keys (rows : List (List Str)) (d : Option Str) :
    ((parse_schedule rows d).map trainKey).Nodup ∧
    parse_schedule rows d = dedupKeysAux [] (rows.filterMap (rowTrain d)) := by
  refine ⟨?_, ?_⟩ <;> rw [parse_schedule, parseAux_eq_dedup]
  exact dedupKeysAux_keys_nodup _ _

/-- C5: the parse result is a sublist of the in-order per-row records:
records appear in the same relative order as their source rows, never
re-sorted. -/
theorem C5_order_preserved (rows : List (List Str)) (d : Option Str) :
    List.Sublist (parse_schedule rows d) (rows.filterMap (rowTrain d)) := by
  rw [parse_schedule, parseAux_eq_dedup]
  exact dedupKeysAux_sublist _ _

/-- C6: the documented example simplifies exactly as the spec states. -/
theorem C6_simplify_example :
    simplify_route_text
      (str "Электричка Москва Ярославская — Сергиев Посад (обычно путь 1-6) ежедневно 6212") =
      str "Москва Ярославская — Сергиев Посад" := by decide

/-- C7: `find_days_label` equals the spec's description — fragments in
row order, labels in fixed order within each lower-cased fragment, first
match wins, empty string when none. -/
theorem C7_find_days_label_spec (chunks : List Str) :
    find_days_label chunks = findDaysLabelSpec chunks := by
  induction chunks with
  | nil => rfl
  | cons part rest ih =>
    simp only [find_days_label, findDaysLabelSpec, List.filterMap_cons]
    cases h : DAY_LABELS.find? (fun label => containsSub label (part.map toLowerRu)) with
    | some l => simp [h]
    | none => simpa [h, findDaysLabelSpec] using ih

/-- C8: emitted routes are never empty, and a row all of whose
dash-containing fragments simplify to the empty string contributes no
record — parsing continues as if the row were absent, with no error. -/
theorem C8_route_nonempty_silent_skip (rows : List (List Str)) (d : Option Str)
    (pre post : List (List Str)) (row : List Str) :
    (∀ t ∈ parse_schedule rows d, t.route ≠ []) ∧
    ((∀ c ∈ rowTexts row, hasDash c = true → simplify_route_text c = []) →
      parse_schedule (pre ++ row :: post) d = parse_schedule (pre ++ post) d) := by
  constructor
  · intro t ht
    rcases mem_parse_schedule ht with ⟨r, _, hr⟩
    exact (find_route_string_eq_some _ (rowTrain_eq_some hr).2.2.2).2
  · intro h
    have hroute := find_route_string_eq_none _ h
    have hnone : rowTrain d row = none := by
      simp only [rowTrain, hroute]
      split
      · rfl
      · split
        · rfl
        · split
          · rfl
          · rfl
    rw [parse_schedule, parse_schedule, parseAux_eq_dedup, parseAux_eq_dedup,
      List.filterMap_append, List.filterMap_append, List.filterMap_cons, hnone]

/-- C8 witness: a row whose only fragment is `"(А — Б)"` (dash present,
simplification empty) is silently dropped: parsing it alongside a normal
row gives the same result as parsing the normal row alone. -/
theorem C8_route_nonempty_silent_skip_witness :
    (∀ t ∈ parse_schedule [[str "07:10", str "В — Г"]] none, t.route ≠ []) ∧
    parse_schedule [[str "(А — Б)"], [str "07:10", str "В — Г"]] none =
      parse_schedule [[str "07:10", str "В — Г"]] none :=
  ⟨(C8_route_nonempty_silent_skip [[str "07:10", str "В — Г"]] none []
      [[str "07:10", str "В — Г"]] [str "(А — Б)"]).1,
   (C8_route_nonempty_silent_skip [[str "07:10", str "В — Г"]] none []
      [[str "07:10", str "В — Г"]] [str "(А — Б)"]).2 (by decide)⟩

/-- C9: `parse_schedule` is deterministic — two invocations on the same
arguments, each with its own fresh `seen` set, return identical lists. -/
theorem C9_deterministic (rows : List (List Str)) (d : Option Str) :
    (parseTwice rows d).1 = (parseTwice rows d).2 := rfl

/-- The skip guard treats the empty-string filter exactly like `None`:
both are falsy, so the per-row extraction coincides. -/
theorem rowTrain_empty_filter (row : List Str) :
    rowTrain (some []) row = rowTrain none row := rfl

/-- C10: passing the empty string as the day filter disables filtering —
the result equals the unfiltered parse. -/
theorem C10_empty_filter (rows : List (List Str)) :
    parse_schedule rows (some []) = parse_schedule rows none := by
  rw [parse_schedule, parse_schedule, parseAux_eq_dedup, parseAux_eq_dedup,
    show rowTrain (some []) = rowTrain none from funext rowTrain_empty_filter]
